import Mathlib

/-!
Verification development for the MicroMath+ expression pipeline
(parser tokenisation, compiler, stack virtual machine and run-time
environment).  The definitions below are a shallow embedding of the C++
sources:

* `execution.h`   : `value`, `function_i`, instructions, `rte`, lookups;
* `adaptors.h`    : `unary_function` / `binary_function` stack adaptors;
* `def_rte.h`     : `scalar_assign`, `vector_assign`, `dotprod3`,
  `crossprod3`, `vector_op_apply`;
* `vm.h`          : `vm::run`;
* `compiler.h`    : `compiler::compile`;
* `math_parser.h` : `math_parser::create_token` / `create_tokens`.

Modelling conventions.

* The numeric template parameter `T` becomes a type parameter `V`
  (`double` in the default instantiation; arithmetic on `V` is supplied
  by `Add`/`Sub`/`Mul` instances and concrete checks use `Int`).
* C++ strings are Lean `String`s; where character-level index
  arithmetic matters (the tokenizer) words are `List Char`.
* `shared_ptr<value<T>>` handles held by `load_var` instructions are
  modelled as indices into the run-time environment's variable table;
  writing through the handle updates the cell seen by every instruction
  that references the same index, which is exactly the shared-cell
  semantics of the source.
* `rte::prog_p` is constant while `run` executes, so the program is
  passed as an explicit argument instead of being stored in the state.
* C++ exceptions become `Except` errors carrying the state at the throw
  point (the C++ `rte` is passed by reference, so mutations performed
  before a throw are visible to the catcher).  Undefined behaviour
  (popping an empty `std::stack`, out-of-range indexing, reading an
  uninitialised array slot) is mapped to distinct error values.
* `search_number` / `search_name` live in `text_utility.h`, which is not
  part of the available sources; the tokenizer takes the two match
  predicates as parameters (`mnum`, `mname`).  Every statement about the
  tokenizer below is independent of them.
-/

set_option linter.unusedVariables false

namespace MMathPlus

/-! ## Parser data model (math_parser.h) -/

/-- Operator descriptor `operator_type` from math_parser.h. -/
structure operator_type where
  name : String
  operands : Int
  largs : Int
  rargs : Int
  outvals : Int
  swap : Bool
deriving Repr, DecidableEq

/-- Token variants `token` / `value_token` / `name_token` /
`function_token` / `operator_token` from math_parser.h.  The `unknown`
case is the base-class `token` built with type `UNKNOWN`. -/
inductive Token where
  | unknown (str : String)
  | value (str : String)
  | name (str : String)
  | function (str : String) (args : Int) (outvalues : Int)
  | operator (str : String) (largs : Int) (rargs : Int) (outvalues : Int)
deriving Repr, DecidableEq

/-- Is the token of kind UNKNOWN ? -/
def Token.is_unknown : Token → Bool
  | .unknown _ => true
  | _ => false

/-! ### Tokenizer helpers

`create_token` reads the integers between `[` and `]` with an
`istringstream` loop `while(is){ is >> v; if(is) values.push_back(v); }`.
`std::istream` integer extraction skips whitespace, then reads an
optional sign followed by at least one decimal digit; it fails (and the
loop stops) when no digit can be read. -/

/-- Whitespace as classified by `istream` extraction. -/
def is_ws (c : Char) : Bool :=
  c = ' ' ∨ c = '\t' ∨ c = '\n' ∨ c = '\r'

/-- Numeric value of a digit run (most significant first). -/
def digits_val (cs : List Char) : Nat :=
  cs.foldl (fun a c => 10 * a + (c.toNat - '0'.toNat)) 0

/-- One `is >> v` step for `int v`: skip whitespace, optional sign, at
least one digit.  Returns the value and the unread remainder. -/
def read_int? (cs : List Char) : Option (Int × List Char) :=
  let cs1 := cs.dropWhile is_ws
  let core := fun (sign : Int) (rest : List Char) =>
    let ds := rest.takeWhile Char.isDigit
    if ds.isEmpty then none
    else some (sign * (digits_val ds : Int), rest.dropWhile Char.isDigit)
  match cs1 with
  | '+' :: rest => core 1 rest
  | '-' :: rest => core (-1) rest
  | _ => core 1 cs1

/-- The extraction loop, with fuel (each successful step consumes at
least one character, so `cs.length + 1` steps always suffice). -/
def read_ints_aux : Nat → List Char → List Int
  | 0, _ => []
  | fuel + 1, cs =>
    match read_int? cs with
    | none => []
    | some (v, rest) => v :: read_ints_aux fuel rest

/-- List of integers extracted from the bracket contents. -/
def read_ints (cs : List Char) : List Int :=
  read_ints_aux (cs.length + 1) cs

/-- `std::string::find(ch, from)`: first index `≥ from` holding `ch`. -/
def find_from (ch : Char) (start : Nat) (w : List Char) : Option Nat :=
  ((w.drop start).findIdx? (· = ch)).map (· + start)

/-- Last-character test `s[s.size()-1] == ch` (false on the empty
string, which the stream splitter never produces). -/
def ends_with (ch : Char) (w : List Char) : Bool :=
  w.getLast? = some ch

/-! ### create_token (math_parser.h, annotated-token dispatch) -/

/-- Tail of `create_token`: number match, name match, the (dead, when
`count_args` is false the first scan already returned) second operator
scan, and the final `UNKNOWN` token. -/
def create_token_rest (ops : List operator_type) (count_args : Bool)
    (mnum mname : List Char → Bool) (w : List Char) : Option Token :=
  if mnum w then some (.value (String.mk w))
  else if mname w then some (.name (String.mk w))
  else if ¬count_args ∧ (ops.find? (fun o => o.name == String.mk w)).isSome then
    some (.operator (String.mk w) (-1) (-1) (-1))
  else some (.unknown (String.mk w))

/-- `math_parser::create_token`.  Returns `none` exactly where the C++
returns the null pointer (annotation holding a number of integers other
than 1, 2 or 3). -/
def create_token (ops : List operator_type) (count_args : Bool)
    (mnum mname : List Char → Bool) (w : List Char) : Option Token :=
  if count_args then
    match find_from '[' 0 w with
    | some i =>
      match find_from ']' i w with
      | none => some (.unknown (String.mk w))
      | some c =>
        let name := String.mk (w.take i)
        match read_ints ((w.drop (i + 1)).take (c - (i + 1))) with
        | [a] => some (.function name a (-1))
        | [a, b] => some (.function name a b)
        | [a, b, o] => some (.operator name a b o)
        | _ => none
    | none => create_token_rest ops count_args mnum mname w
  else
    match ops.find? (fun o => o.name == String.mk w) with
    | some _ => some (.operator (String.mk w) (-1) (-1) (-1))
    | none => create_token_rest ops count_args mnum mname w

/-! ### create_tokens (math_parser.h)

The stream is modelled as the list of its whitespace-separated words.
The annotation-rejoining inner loop reads words until one ending in `]`
is consumed; a word is appended to `sv` only when `is.good()` holds
after its extraction, i.e. only when it is not the last word of the
stream (reading the last word raises `eofbit`). -/

/-- The inner rejoin loop: returns the words appended to `sv` and the
words left in the stream. -/
def rejoin_words : List (List Char) → List (List Char) × List (List Char)
  | [] => ([], [])
  | w :: rest =>
    if rest.isEmpty then ([], [])
    else if ends_with ']' w then ([w], rest)
    else (w :: (rejoin_words rest).1, (rejoin_words rest).2)

/-- Append the collected words to the current word, separated by single
blanks (`s += BLANK; s += sv[i]`). -/
def join_blank (w : List Char) (coll : List (List Char)) : List Char :=
  w ++ (coll.map (fun x => ' ' :: x)).flatten

/-- The word-consuming loop of `create_tokens`, bounded by fuel (the
consumed part of the stream strictly grows on each iteration, so
`ws.length + 1` units are never exhausted). -/
def create_tokens_aux (ops : List operator_type) (count_args : Bool)
    (mnum mname : List Char → Bool) : Nat → List (List Char) → List Token
  | 0, _ => []
  | _, [] => []
  | fuel + 1, w :: rest =>
    if count_args ∧ ('[' ∈ w) ∧ ¬(ends_with ']' w) then
      let pr := rejoin_words rest
      let w' := join_blank w pr.1
      match create_token ops count_args mnum mname w' with
      | some t => t :: create_tokens_aux ops count_args mnum mname fuel pr.2
      | none => create_tokens_aux ops count_args mnum mname fuel pr.2
    else
      match create_token ops count_args mnum mname w with
      | some t => t :: create_tokens_aux ops count_args mnum mname fuel rest
      | none => create_tokens_aux ops count_args mnum mname fuel rest

/-- `math_parser::create_tokens` (with `debug_` off): split the RPN
string into words, rejoin multi-word annotations, and keep every
non-null token produced by `create_token`. -/
def create_tokens (ops : List operator_type) (count_args : Bool)
    (mnum mname : List Char → Bool) (ws : List (List Char)) : List Token :=
  create_tokens_aux ops count_args mnum mname (ws.length + 1) ws

/-! ## Run-time data model (execution.h) -/

variable {V : Type}

/-- `value<T>`: a named value cell. -/
structure value (V : Type) where
  name : String
  val : V
deriving Repr, DecidableEq

/-- The metadata fields of the `function_i<T>` base class. -/
structure function_i where
  name : String
  values_in : Int
  values_out : Int
  lvalues_in : Int
  rvalues_in : Int
deriving Repr, DecidableEq

/-- The `function_i` constructor: `function_i(n, in, out, lin)` stores
`rvalues_in = in - lin`. -/
def mkFunction_i (n : String) (vin vout lin : Int) : function_i :=
  { name := n, values_in := vin, values_out := vout,
    lvalues_in := lin, rvalues_in := vin - lin }

/-- The function objects reachable from the default run-time
environment (def_rte.h together with the `function<FunT,T>` wrapper of
execution.h over the adaptors of adaptors.h).

* `unary n f lin`  : `function<unary_function<T>,T>(f, n, 1, 1, lin)`;
* `binary n f lin` : `function<binary_function<T>,T>(f, n, 2, 1, lin)`;
* `scalar_assign`, `vector_assign N`, `dotprod3`, `crossprod3`,
  `vector_op_apply N inner` : the classes of def_rte.h. -/
inductive FunObj (V : Type) where
  | unary (name : String) (f : V → V) (lin : Int)
  | binary (name : String) (f : V → V → V) (lin : Int)
  | scalar_assign
  | vector_assign (N : Nat)
  | dotprod3
  | crossprod3
  | vector_op_apply (N : Nat) (inner : FunObj V)

/-- Each constructor's delegation to the `function_i` base constructor,
with the literal arguments appearing in the source. -/
def FunObj.meta : FunObj V → function_i
  | .unary n _ lin => mkFunction_i n 1 1 lin
  | .binary n _ lin => mkFunction_i n 2 1 lin
  | .scalar_assign => mkFunction_i "=" 2 1 1
  | .vector_assign N => mkFunction_i "=" (2 * N) N N
  | .dotprod3 => mkFunction_i "*" 6 1 3
  | .crossprod3 => mkFunction_i "cross3" 6 3 0
  | .vector_op_apply N inner => mkFunction_i inner.meta.name (2 * N) N N

/-- Field accessor `name`. -/
def FunObj.name (f : FunObj V) : String := f.meta.name

/-- Field accessor `values_in`. -/
def FunObj.values_in (f : FunObj V) : Int := f.meta.values_in

/-- Field accessor `values_out`. -/
def FunObj.values_out (f : FunObj V) : Int := f.meta.values_out

/-- Field accessor `lvalues_in`. -/
def FunObj.lvalues_in (f : FunObj V) : Int := f.meta.lvalues_in

/-- Field accessor `rvalues_in`. -/
def FunObj.rvalues_in (f : FunObj V) : Int := f.meta.rvalues_in

/-- Instruction variants `load_val` / `load_var` / `call_fun`
(execution.h).  `load_var` holds the shared handle to a variable cell,
modelled as the cell's index in the variable table. -/
inductive instruction (V : Type) where
  | load_val (v : V)
  | load_var (idx : Nat)
  | call_fun (f : FunObj V)

/-- Is the instruction a `load_var` (the `dynamic_cast<load_var<T>*>`
test of the assignment functions) ? -/
def instruction.is_load_var : instruction V → Bool
  | .load_var _ => true
  | _ => false

/-- Run-time environment `rte<T>` (execution.h).  The value stack is a
list whose head is the top. -/
structure rte (V : Type) where
  fun_tab : List (FunObj V)
  var_tab : List (value V)
  const_tab : List (value V)
  stack : List V
  exe_stack : List Nat
  ip : Nat

/-- `rte::function_p(s, rargs, largs)`: linear scan of the function
table; with `rargs < 0` only the name is compared, otherwise name and
both arities must match. -/
def rte.function_p (rt : rte V) (s : String) (rargs : Int) (largs : Int) :
    Option (FunObj V) :=
  if rargs < 0 then
    rt.fun_tab.find? (fun f => f.name == s)
  else
    rt.fun_tab.find? (fun f =>
      f.name == s && f.rvalues_in == rargs && f.lvalues_in == largs)

/-- `rte::variable_p(name)`: linear scan of the variable table. -/
def rte.variable_p (rt : rte V) (s : String) : Option (value V) :=
  rt.var_tab.find? (fun c => c.name == s)

/-- Position of the first cell with the given name in a table (the
index the shared handle returned by `variable_p` points to). -/
def find_name_idx : List (value V) → String → Option Nat
  | [], _ => none
  | c :: cs, s =>
    if c.name == s then some 0 else (find_name_idx cs s).map (· + 1)

/-- Index form of `variable_p`: the position of the cell the returned
shared handle points to. -/
def rte.variable_idx (rt : rte V) (s : String) : Option Nat :=
  find_name_idx rt.var_tab s

/-- `rte::constant_p(name)`: linear scan of the constant table. -/
def rte.constant_p (rt : rte V) (s : String) : Option (value V) :=
  rt.const_tab.find? (fun c => c.name == s)

/-- Writing through a `load_var` handle: `lv_p->val_p->val = v` updates
the cell in place, preserving its name. -/
def set_val : List (value V) → Nat → V → List (value V)
  | [], _, _ => []
  | c :: cs, 0, v => ⟨c.name, v⟩ :: cs
  | c :: cs, n + 1, v => c :: set_val cs n v

/-! ## Execution errors

`invalid_assign` is the exception class of def_rte.h.  The remaining
values stand for executions on which the C++ has undefined behaviour:
`stack_underflow` (`top()`/`pop()` on an empty `std::stack`),
`bad_access` (out-of-range `std::vector` indexing, including the
wrap-around of `ip - 1 - i` below `0`), `uninit` (reading an
uninitialised element of the local array `T v[N]`), and `out_of_fuel`,
an unreachable sentinel used to bound the VM loop. -/
inductive run_err where
  | invalid_assign
  | stack_underflow
  | bad_access
  | uninit
  | out_of_fuel
deriving Repr, DecidableEq

/-- Result of executing an effect on the run-time environment: either
the updated state, or an error paired with the state at the throw point
(the C++ `rte` is passed by reference). -/
abbrev Res (V : Type) := Except (run_err × rte V) (rte V)

/-! ## Function-object effects (adaptors.h, def_rte.h) -/

/-- Pop `n` values off the stack, collecting them top-first
(`v[i] = rt.stack.top(); rt.stack.pop();` repeated). -/
def pop_n : Nat → List V → Option (List V × List V)
  | 0, s => some ([], s)
  | _ + 1, [] => none
  | n + 1, x :: s =>
    match pop_n n s with
    | none => none
    | some (vs, s') => some (x :: vs, s')

/-- The per-element loop of `vector_op_apply::operator()`: for each pair
`v1[i]`, `v2[i]` push both, run the wrapped function, and pop the result
into `vo[i]`.  The wrapped function is passed as an abstract `step` so
that the loop itself does not recurse through `FunObj`. -/
def vo_loop (step : rte V → Res V) :
    List V → List V → rte V → Except (run_err × rte V) (List V × rte V)
  | [], _, rt => .ok ([], rt)
  | _ :: _, [], rt => .ok ([], rt)
  | a :: as', b :: bs, rt =>
    match step { rt with stack := b :: a :: rt.stack } with
    | .error e => .error e
    | .ok rt' =>
      match rt'.stack with
      | [] => .error (.stack_underflow, rt')
      | o :: s' =>
        match vo_loop step as' bs { rt' with stack := s' } with
        | .error e => .error e
        | .ok (os, rt'') => .ok (o :: os, rt'')

/-- The read/assign loop of `vector_assign::operator()`: starting at
`i`, while `i != N` and the stack is non-empty, require
`prog[ip - (1 + i)]` to be a `load_var` (else throw `invalid_assign`),
pop the top into `v[i]` and write it to the referenced cell.  Returns
the collected `v[i]` in order. -/
def vec_assign_loop (prog : List (instruction V)) (N : Nat) (i : Nat)
    (rt : rte V) : Except (run_err × rte V) (List V × rte V) :=
  if _h : N ≤ i then .ok ([], rt)
  else
    match rt.stack with
    | [] => .ok ([], rt)
    | v :: s =>
      if rt.ip < 1 + i then .error (.bad_access, rt)
      else
        match prog[rt.ip - (1 + i)]? with
        | none => .error (.bad_access, rt)
        | some (.load_var ix) =>
          match vec_assign_loop prog N (i + 1)
              { rt with stack := s, var_tab := set_val rt.var_tab ix v } with
          | .error e => .error e
          | .ok (vs, rt') => .ok (v :: vs, rt')
        | some _ => .error (.invalid_assign, rt)
  termination_by N - i

/-- Effect of invoking a function object on the run-time environment
(`operator()(rte<T>&)` of each class).  `prog` is the program the
enclosing VM is executing (`*rt.prog_p`). -/
def applyFun [Add V] [Sub V] [Mul V] :
    FunObj V → List (instruction V) → rte V → Res V
  | .unary _ f _, _, rt =>
    match rt.stack with
    | [] => .error (.stack_underflow, rt)
    | x :: s => .ok { rt with stack := f x :: s }
  | .binary _ f _, _, rt =>
    match rt.stack with
    | [] => .error (.stack_underflow, rt)
    | [_] => .error (.stack_underflow, { rt with stack := [] })
    | op2 :: op1 :: s => .ok { rt with stack := f op1 op2 :: s }
  | .scalar_assign, prog, rt =>
    match rt.stack with
    | [] => .error (.stack_underflow, rt)
    | _ :: s =>
      let rt1 := { rt with stack := s }
      if rt.ip = 0 then .error (.bad_access, rt1)
      else
        match prog[rt.ip - 1]? with
        | none => .error (.bad_access, rt1)
        | some (.load_var ix) =>
          match s with
          | [] => .error (.stack_underflow, rt1)
          | v :: _ => .ok { rt1 with var_tab := set_val rt1.var_tab ix v }
        | some _ => .error (.invalid_assign, rt1)
  | .vector_assign N, prog, rt =>
    let rt1 := { rt with stack := rt.stack.drop N }
    match vec_assign_loop prog N 0 rt1 with
    | .error e => .error e
    | .ok (vs, rt2) =>
      if vs.length = N then .ok { rt2 with stack := vs ++ rt2.stack }
      else .error (.uninit, rt2)
  | .dotprod3, _, rt =>
    match rt.stack with
    | z2 :: y2 :: x2 :: z1 :: y1 :: x1 :: s =>
      .ok { rt with stack := (x1 * x2 + y1 * y2 + z1 * z2) :: s }
    | _ => .error (.stack_underflow, rt)
  | .crossprod3, _, rt =>
    match rt.stack with
    | z2 :: y2 :: x2 :: z1 :: y1 :: x1 :: s =>
      .ok { rt with stack :=
        (x1 * y2 - x2 * y1) :: (x2 * z1 - x1 * z2) :: (y1 * z2 - y2 * z1) :: s }
    | _ => .error (.stack_underflow, rt)
  | .vector_op_apply N inner, prog, rt =>
    match pop_n N rt.stack with
    | none => .error (.stack_underflow, rt)
    | some (v2, s1) =>
      match pop_n N s1 with
      | none => .error (.stack_underflow, { rt with stack := s1 })
      | some (v1, s2) =>
        match vo_loop (applyFun inner prog) v1 v2 { rt with stack := s2 } with
        | .error e => .error e
        | .ok (vo, rt') => .ok { rt' with stack := vo ++ rt'.stack }

/-! ## Instructions and the virtual machine (execution.h, vm.h) -/

/-- `instruction::exec`: `load_val` pushes its value, `load_var` pushes
the referenced cell's value, `call_fun` invokes the function object. -/
def exec [Add V] [Sub V] [Mul V]
    (ins : instruction V) (prog : List (instruction V)) (rt : rte V) : Res V :=
  match ins with
  | .load_val v => .ok { rt with stack := v :: rt.stack }
  | .load_var ix =>
    match rt.var_tab[ix]? with
    | some c => .ok { rt with stack := c.val :: rt.stack }
    | none => .error (.bad_access, rt)
  | .call_fun f => applyFun f prog rt

/-- The loop of `vm::run`: while `ip != prog.size()`, execute
`prog[ip]` and then increment `ip`.  The loop is bounded by a fuel
counter; since no modelled instruction writes `ip`, the pointer grows by
one each iteration and `prog.length + 1` units of fuel are never
exhausted (dereferencing `prog[ip]` out of range stops with
`bad_access` first). -/
def run_loop [Add V] [Sub V] [Mul V] (prog : List (instruction V)) :
    Nat → rte V → Res V
  | 0, rt =>
    if rt.ip = prog.length then .ok rt else .error (.out_of_fuel, rt)
  | fuel + 1, rt =>
    if rt.ip = prog.length then .ok rt
    else
      match prog[rt.ip]? with
      | none => .error (.bad_access, rt)
      | some ins =>
        match exec ins prog rt with
        | .error e => .error e
        | .ok rt' => run_loop prog fuel { rt' with ip := rt'.ip + 1 }

/-- `vm::run(entry)`: set `ip = entry`, then run the dispatch loop. -/
def vm_run [Add V] [Sub V] [Mul V]
    (prog : List (instruction V)) (rt : rte V) (entry : Nat) : Res V :=
  run_loop prog (prog.length + 1) { rt with ip := entry }

/-- The dispatch loop exactly as the specification words it: `while
ip < program.size` execute `program[ip]` and then increment `ip`;
return as soon as `ip` is no longer below the program size. -/
def spec_run [Add V] [Sub V] [Mul V]
    (prog : List (instruction V)) (rt : rte V) : Res V :=
  if h : rt.ip < prog.length then
    match exec (prog.get ⟨rt.ip, h⟩) prog rt with
    | .error e => .error e
    | .ok rt' => spec_run prog { rt' with ip := rt.ip + 1 }
  else .ok rt
  termination_by prog.length - rt.ip

/-! ## Compiler (compiler.h) -/

/-- Compiler failure kinds `null_token` / `unknown_token`. -/
inductive comp_err where
  | null_token
  | unknown_token
deriving Repr, DecidableEq

/-- Compiler options: `count_args` (resolve functions by arity) and
`create_variables` (create a cell for an unresolved name). -/
structure compiler where
  count_args : Bool
  create_variables : Bool
deriving Repr, DecidableEq

/-- Per-token dispatch `compiler::compile(TokenPtr, rte&)`.  `atof`
abstracts the C library numeric conversion applied to VALUE tokens; a
null `TokenPtr` is `none`.  Returns the emitted instruction and the
(possibly grown) run-time environment. -/
def compile_token [Inhabited V] (c : compiler) (atof : String → V)
    (t : Option Token) (rt : rte V) :
    Except comp_err (instruction V × rte V) :=
  match t with
  | none => .error .null_token
  | some (.unknown _) => .error .unknown_token
  | some (.value s) => .ok (.load_val (atof s), rt)
  | some (.function s args _) =>
    match rt.function_p s (if c.count_args then args else -1) 0 with
    | some f => .ok (.call_fun f, rt)
    | none => .error .unknown_token
  | some (.operator s largs rargs _) =>
    match rt.function_p s rargs largs with
    | some f => .ok (.call_fun f, rt)
    | none => .error .unknown_token
  | some (.name s) =>
    match (if c.count_args then none else rt.function_p s (-1) 0) with
    | some f => .ok (.call_fun f, rt)
    | none =>
      match rt.variable_idx s with
      | some ix => .ok (.load_var ix, rt)
      | none =>
        match rt.constant_p s with
        | some cc => .ok (.load_val cc.val, rt)
        | none =>
          if c.create_variables then
            .ok (.load_var rt.var_tab.length,
                 { rt with var_tab := rt.var_tab ++ [⟨s, default⟩] })
          else .error .unknown_token

/-- `compiler::compile(tokens, rte&)`: one instruction per token, in
order, threading the run-time environment through variable creation. -/
def compile [Inhabited V] (c : compiler) (atof : String → V) :
    List (Option Token) → rte V →
    Except comp_err (List (instruction V) × rte V)
  | [], rt => .ok ([], rt)
  | t :: ts, rt =>
    match compile_token c atof t rt with
    | .error e => .error e
    | .ok (ins, rt1) =>
      match compile c atof ts rt1 with
      | .error e => .error e
      | .ok (p, rt2) => .ok (ins :: p, rt2)

/-! ## Concrete instances used by the end-to-end checks -/

/-- An empty run-time environment over `Int` (the claims about concrete
runs do not consult the tables). -/
def rte_c2 : rte Int := ⟨[], [], [], [], [], 0⟩

/-- The program compiled from the RPN `1 2 3 4 5 6 +[ 3 3 3 ]` of the
input `(1,2,3) + (4,5,6)`: six `load_val` instructions followed by a
call of the elementwise lift `vector_op_apply<double,3>` of the binary
`+` (`add`) entry of `generate_def_functions`. -/
def prog_c2 : List (instruction Int) :=
  [.load_val 1, .load_val 2, .load_val 3, .load_val 4, .load_val 5,
   .load_val 6, .call_fun (.vector_op_apply 3 (.binary "+" (· + ·) 1))]

/-- Specification of a first-match linear scan: the result is the first
element of the list satisfying the predicate, in list order, and `none`
exactly when no element satisfies it. -/
def first_match_spec {α : Type} (p : α → Bool) (l : List α) :
    Option α → Prop
  | none => ∀ x ∈ l, p x = false
  | some a =>
    ∃ n, ∃ hn : n < l.length,
      l.get ⟨n, hn⟩ = a ∧ p a = true ∧
      ∀ m, (hm : m < l.length) → m < n → p (l.get ⟨m, hm⟩) = false

/-! ## Helper lemmas -/

/-- `List.find?` returns the first match. -/
theorem find?_first_match {α : Type} (p : α → Bool) (l : List α) :
    first_match_spec p l (l.find? p) := by
  induction l with
  | nil =>
    simp only [List.find?_nil, first_match_spec]
    intro x hx
    simp at hx
  | cons x xs ih =>
    cases hx : p x with
    | true =>
      have hf : (x :: xs).find? p = some x := by
        simp [List.find?, hx]
      rw [hf]
      simp only [first_match_spec]
      exact ⟨0, by simp, rfl, hx, by omega⟩
    | false =>
      have hf : (x :: xs).find? p = xs.find? p := by
        simp [List.find?, hx]
      rw [hf]
      cases h : xs.find? p with
      | none =>
        rw [h] at ih
        simp only [first_match_spec] at ih ⊢
        intro y hy
        rcases List.mem_cons.mp hy with rfl | hy
        · exact hx
        · exact ih y hy
      | some a =>
        rw [h] at ih
        simp only [first_match_spec] at ih ⊢
        obtain ⟨n, hn, hget, hpa, hfirst⟩ := ih
        refine ⟨n + 1, by simpa using hn, by simpa using hget, hpa, ?_⟩
        intro m hm hmn
        match m with
        | 0 => exact hx
        | m' + 1 =>
          have hmx : m' < xs.length := by simpa using hm
          simpa using hfirst m' hmx (by omega)

/-- `variable_p` and `variable_idx` miss together. -/
theorem variable_p_none_iff_idx_none (rt : rte V) (s : String) :
    rte.variable_p rt s = none ↔ rte.variable_idx rt s = none := by
  unfold rte.variable_p rte.variable_idx
  induction rt.var_tab with
  | nil => simp [find_name_idx]
  | cons c cs ih =>
    cases hc : (c.name == s) with
    | true => simp [List.find?, find_name_idx, hc]
    | false => simpa [List.find?, find_name_idx, hc] using ih

/-- Reading back a cell written through `set_val`. -/
theorem set_val_get?_val (l : List (value V)) (ix : Nat) (v : V)
    (h : ix < l.length) :
    ((set_val l ix v)[ix]?).map value.val = some v := by
  induction l generalizing ix with
  | nil => simp at h
  | cons c cs ih =>
    match ix with
    | 0 => simp [set_val]
    | n + 1 =>
      have : n < cs.length := by simpa using h
      simpa [set_val] using ih n this

/-! ## Claims -/

/-- C9: for every function object however constructed, the total input
arity equals the left-operand arity plus the right-operand arity
(`in == lin + rin`), because the `function_i` constructor stores
`rvalues_in = in - lin` and the arity fields are immutable. -/
theorem claim_C9 (f : FunObj V) :
    f.values_in = f.lvalues_in + f.rvalues_in := by
  cases f <;>
    simp [FunObj.values_in, FunObj.lvalues_in, FunObj.rvalues_in,
      FunObj.meta, mkFunction_i]

/-- C7: `function_p(s, rargs, largs)` scans the function table in order
and returns the first function whose name matches `s` (when
`rargs < 0`), or the first whose name, `rvalues_in` and `lvalues_in`
match exactly (when `rargs ≥ 0`); it returns the null handle when no
entry matches. -/
theorem claim_C7 (rt : rte V) (s : String) (rargs largs : Int) :
    first_match_spec
      (fun f => if rargs < 0 then f.name == s
        else f.name == s && f.rvalues_in == rargs && f.lvalues_in == largs)
      rt.fun_tab (rt.function_p s rargs largs) := by
  unfold rte.function_p
  by_cases h : rargs < 0
  · simp only [if_pos h]
    simpa [h] using
      find?_first_match (fun f : FunObj V => f.name == s) rt.fun_tab
  · simp only [if_neg h]
    simpa [h] using
      find?_first_match
        (fun f : FunObj V =>
          f.name == s && f.rvalues_in == rargs && f.lvalues_in == largs)
        rt.fun_tab

/-- C8: whenever `compile` succeeds it emits exactly one instruction
per token, in order, so the program length equals the token count. -/
theorem claim_C8 [Inhabited V] (c : compiler) (atof : String → V)
    (ts : List (Option Token)) (rt : rte V)
    (pr : List (instruction V) × rte V)
    (h : compile c atof ts rt = .ok pr) :
    pr.1.length = ts.length := by
  induction ts generalizing rt pr with
  | nil =>
    simp only [compile] at h
    cases h
    simp
  | cons t ts ih =>
    cases hct : compile_token c atof t rt with
    | error e => simp only [compile, hct] at h; simp at h
    | ok irt =>
      obtain ⟨ins, rt1⟩ := irt
      cases hcc : compile c atof ts rt1 with
      | error e => simp only [compile, hct, hcc] at h; simp at h
      | ok pr2 =>
        obtain ⟨p2, rt2⟩ := pr2
        simp only [compile, hct, hcc] at h
        cases h
        have := ih rt1 (p2, rt2) hcc
        simpa using congrArg Nat.succ this

/-- C8 witness: compiling one VALUE token yields a one-instruction
program. -/
theorem claim_C8_witness :
    compile (V := Int) ⟨true, true⟩ (fun _ => 0)
        [some (.value "1")] ⟨[], [], [], [], [], 0⟩ =
      .ok ([.load_val 0], ⟨[], [], [], [], [], 0⟩) ∧
    ([instruction.load_val (0 : Int)].length = [some (Token.value "1")].length) :=
  ⟨rfl, claim_C8 ⟨true, true⟩ (fun _ => 0) [some (.value "1")]
    ⟨[], [], [], [], [], 0⟩ ([.load_val 0], ⟨[], [], [], [], [], 0⟩) rfl⟩

/-- C6: on a Name token that resolves to no function (the name-only
lookup is attempted only when `count_args` is off), no variable and no
constant, the compiler appends a fresh cell named after the token and
initialised to `V()` and emits a `LoadVar` referring to it when
`create_variables` is on, and fails with `unknown_token` when it is
off. -/
theorem claim_C6 [Inhabited V] (c : compiler) (atof : String → V)
    (rt : rte V) (s : String)
    (hf : c.count_args = false → rt.function_p s (-1) 0 = none)
    (hv : rt.variable_p s = none)
    (hc : rt.constant_p s = none) :
    (c.create_variables = true →
      compile_token c atof (some (.name s)) rt =
        .ok (.load_var rt.var_tab.length,
          { rt with var_tab := rt.var_tab ++ [⟨s, default⟩] })) ∧
    (c.create_variables = false →
      compile_token c atof (some (.name s)) rt = .error .unknown_token) := by
  have hidx : rt.variable_idx s = none :=
    (variable_p_none_iff_idx_none rt s).mp hv
  have hfn : (if c.count_args then none else rt.function_p s (-1) 0) =
      (none : Option (FunObj V)) := by
    cases hcc : c.count_args
    · simpa [hcc] using hf hcc
    · simp [hcc]
  simp only [compile_token, hfn, hidx, hc]
  constructor <;> intro h <;> simp [h]

/-- C6 witness: the name `q` is unresolvable in an empty environment;
with `create_variables` on a cell is created, with it off compilation
fails. -/
theorem claim_C6_witness :
    (compile_token (V := Int) ⟨false, true⟩ (fun _ => 0)
        (some (.name "q")) ⟨[], [], [], [], [], 0⟩ =
      .ok (.load_var 0, ⟨[], [⟨"q", 0⟩], [], [], [], 0⟩)) ∧
    (compile_token (V := Int) ⟨false, false⟩ (fun _ => 0)
        (some (.name "q")) ⟨[], [], [], [], [], 0⟩ =
      .error .unknown_token) := by
  constructor
  · have h := (claim_C6 (V := Int) ⟨false, true⟩ (fun _ => 0)
      ⟨[], [], [], [], [], 0⟩ "q" (fun _ => rfl) rfl rfl).1 rfl
    simpa using h
  · exact (claim_C6 (V := Int) ⟨false, false⟩ (fun _ => 0)
      ⟨[], [], [], [], [], 0⟩ "q" (fun _ => rfl) rfl rfl).2 rfl

/-- `vo_loop` does not touch the instruction pointer if its step
function does not. -/
theorem vo_loop_ip (step : rte V → Res V)
    (hstep : ∀ r r', step r = .ok r' → r'.ip = r.ip) :
    ∀ (as' bs : List V) (rt : rte V) (vs : List V) (rt' : rte V),
      vo_loop step as' bs rt = .ok (vs, rt') → rt'.ip = rt.ip := by
  intro as'
  induction as' with
  | nil =>
    intro bs rt vs rt' h
    simp only [vo_loop] at h
    cases h
    rfl
  | cons a as'' ih =>
    intro bs rt vs rt' h
    cases bs with
    | nil =>
      simp only [vo_loop] at h
      cases h
      rfl
    | cons b bs' =>
      simp only [vo_loop] at h
      cases hs : step { rt with stack := b :: a :: rt.stack } with
      | error e => simp [hs] at h
      | ok rt1 =>
        simp only [hs] at h
        have hip1 : rt1.ip = rt.ip :=
          hstep { rt with stack := b :: a :: rt.stack } rt1 hs
        cases hst : rt1.stack with
        | nil => simp [hst] at h
        | cons o s' =>
          simp only [hst] at h
          cases hrec : vo_loop step as'' bs' { rt1 with stack := s' } with
          | error e => simp [hrec] at h
          | ok pr =>
            obtain ⟨os, rt2⟩ := pr
            simp only [hrec] at h
            have h2 : (o :: os, rt2) = (vs, rt') := by injection h
            have hrt : rt2 = rt' := congrArg Prod.snd h2
            rw [← hrt]
            exact (ih bs' { rt1 with stack := s' } os rt2 hrec).trans hip1

/-- `vec_assign_loop` does not touch the instruction pointer. -/
theorem vec_assign_loop_ip (prog : List (instruction V)) (N : Nat) :
    ∀ (d i : Nat) (rt : rte V) (vs : List V) (rt' : rte V), N - i ≤ d →
      vec_assign_loop prog N i rt = .ok (vs, rt') → rt'.ip = rt.ip := by
  intro d
  induction d with
  | zero =>
    intro i rt vs rt' hd h
    have hN : N ≤ i := by omega
    rw [vec_assign_loop] at h
    rw [dif_pos hN] at h
    cases h
    rfl
  | succ d ih =>
    intro i rt vs rt' hd h
    rw [vec_assign_loop] at h
    by_cases hN : N ≤ i
    · rw [dif_pos hN] at h
      cases h
      rfl
    · rw [dif_neg hN] at h
      cases hst : rt.stack with
      | nil => simp only [hst] at h; cases h; rfl
      | cons v s =>
        simp only [hst] at h
        by_cases hip : rt.ip < 1 + i
        · simp [if_pos hip] at h
        · rw [if_neg hip] at h
          cases hget : prog[rt.ip - (1 + i)]? with
          | none => simp [hget] at h
          | some ins =>
            simp only [hget] at h
            cases ins with
            | load_var ix =>
              cases hrec : vec_assign_loop prog N (i + 1)
                  { rt with stack := s, var_tab := set_val rt.var_tab ix v } with
              | error e => simp [hrec] at h
              | ok pr =>
                obtain ⟨vs2, rt2⟩ := pr
                simp only [hrec] at h
                have h2 : (v :: vs2, rt2) = (vs, rt') := by injection h
                have hrt : rt2 = rt' := congrArg Prod.snd h2
                rw [← hrt]
                exact ih (i + 1)
                  { rt with stack := s, var_tab := set_val rt.var_tab ix v }
                  vs2 rt2 (by omega) hrec
            | load_val v2 => simp at h
            | call_fun f => simp at h

/-- No function-object effect touches the instruction pointer. -/
theorem applyFun_ip [Add V] [Sub V] [Mul V] :
    ∀ (f : FunObj V) (prog : List (instruction V)) (rt rt' : rte V),
      applyFun f prog rt = .ok rt' → rt'.ip = rt.ip := by
  intro f
  induction f with
  | unary n f lin =>
    intro prog rt rt' h
    cases hst : rt.stack with
    | nil => simp [applyFun, hst] at h
    | cons x s =>
      simp only [applyFun, hst] at h
      cases h
      rfl
  | binary n f lin =>
    intro prog rt rt' h
    cases hst : rt.stack with
    | nil => simp [applyFun, hst] at h
    | cons x s =>
      cases s with
      | nil => simp [applyFun, hst] at h
      | cons y s' =>
        simp only [applyFun, hst] at h
        cases h
        rfl
  | scalar_assign =>
    intro prog rt rt' h
    cases hst : rt.stack with
    | nil => simp [applyFun, hst] at h
    | cons x s =>
      by_cases hip : rt.ip = 0
      · simp [applyFun, hst, hip] at h
      · cases hget : prog[rt.ip - 1]? with
        | none => simp [applyFun, hst, hip, hget] at h
        | some ins =>
          cases ins with
          | load_var ix =>
            cases s with
            | nil => simp [applyFun, hst, hip, hget] at h
            | cons v s' =>
              simp only [applyFun, hst, hget, if_neg hip] at h
              cases h
              rfl
          | load_val v => simp [applyFun, hst, hip, hget] at h
          | call_fun g => simp [applyFun, hst, hip, hget] at h
  | vector_assign N =>
    intro prog rt rt' h
    cases hloop : vec_assign_loop prog N 0
        { rt with stack := rt.stack.drop N } with
    | error e => simp [applyFun, hloop] at h
    | ok pr =>
      obtain ⟨vs, rt2⟩ := pr
      by_cases hlen : vs.length = N
      · simp only [applyFun, hloop, if_pos hlen] at h
        cases h
        exact vec_assign_loop_ip prog N N 0
          { rt with stack := rt.stack.drop N } vs rt2 (by omega) hloop
      · simp [applyFun, hloop, hlen] at h
  | dotprod3 =>
    intro prog rt rt' h
    cases hst : rt.stack with
    | nil => simp [applyFun, hst] at h
    | cons z2 s1 =>
      cases s1 with
      | nil => simp [applyFun, hst] at h
      | cons y2 s2 =>
        cases s2 with
        | nil => simp [applyFun, hst] at h
        | cons x2 s3 =>
          cases s3 with
          | nil => simp [applyFun, hst] at h
          | cons z1 s4 =>
            cases s4 with
            | nil => simp [applyFun, hst] at h
            | cons y1 s5 =>
              cases s5 with
              | nil => simp [applyFun, hst] at h
              | cons x1 s6 =>
                simp only [applyFun, hst] at h
                cases h
                rfl
  | crossprod3 =>
    intro prog rt rt' h
    cases hst : rt.stack with
    | nil => simp [applyFun, hst] at h
    | cons z2 s1 =>
      cases s1 with
      | nil => simp [applyFun, hst] at h
      | cons y2 s2 =>
        cases s2 with
        | nil => simp [applyFun, hst] at h
        | cons x2 s3 =>
          cases s3 with
          | nil => simp [applyFun, hst] at h
          | cons z1 s4 =>
            cases s4 with
            | nil => simp [applyFun, hst] at h
            | cons y1 s5 =>
              cases s5 with
              | nil => simp [applyFun, hst] at h
              | cons x1 s6 =>
                simp only [applyFun, hst] at h
                cases h
                rfl
  | vector_op_apply N inner ih =>
    intro prog rt rt' h
    cases hp2 : pop_n N rt.stack with
    | none => simp [applyFun, hp2] at h
    | some pr2 =>
      obtain ⟨v2, s1⟩ := pr2
      cases hp1 : pop_n N s1 with
      | none => simp [applyFun, hp2, hp1] at h
      | some pr1 =>
        obtain ⟨v1, s2⟩ := pr1
        cases hloop : vo_loop (applyFun inner prog) v1 v2
            { rt with stack := s2 } with
        | error e => simp [applyFun, hp2, hp1, hloop] at h
        | ok pr =>
          obtain ⟨vo, rt2⟩ := pr
          simp only [applyFun, hp2, hp1, hloop] at h
          cases h
          exact vo_loop_ip (applyFun inner prog)
            (fun r r' hr => ih prog r r' hr) v1 v2
            { rt with stack := s2 } vo rt2 hloop

/-- No instruction effect touches the instruction pointer. -/
theorem exec_ip [Add V] [Sub V] [Mul V]
    (ins : instruction V) (prog : List (instruction V)) (rt rt' : rte V)
    (h : exec ins prog rt = .ok rt') : rt'.ip = rt.ip := by
  cases ins with
  | load_val v =>
    simp only [exec] at h
    cases h
    rfl
  | load_var ix =>
    cases hget : rt.var_tab[ix]? with
    | none => simp [exec, hget] at h
    | some c =>
      simp only [exec, hget] at h
      cases h
      rfl
  | call_fun f => exact applyFun_ip f prog rt rt' h

/-- With enough fuel and an in-range instruction pointer, the fuelled
`vm::run` loop (`while ip != size`) coincides with the loop as the
specification words it (`while ip < size`). -/
theorem run_loop_eq_spec [Add V] [Sub V] [Mul V] (prog : List (instruction V)) :
    ∀ (fuel : Nat) (rt : rte V), rt.ip ≤ prog.length →
      prog.length - rt.ip ≤ fuel → run_loop prog fuel rt = spec_run prog rt := by
  intro fuel
  induction fuel with
  | zero =>
    intro rt h1 h2
    have hip : rt.ip = prog.length := by omega
    rw [spec_run]
    rw [dif_neg (by omega)]
    simp [run_loop, hip]
  | succ fuel ih =>
    intro rt h1 h2
    by_cases hip : rt.ip = prog.length
    · rw [spec_run]
      rw [dif_neg (by omega)]
      simp [run_loop, hip]
    · have hlt : rt.ip < prog.length := by omega
      have hget : prog[rt.ip]? = some (prog.get ⟨rt.ip, hlt⟩) := by
        simp [List.getElem?_eq_getElem hlt]
      rw [spec_run]
      rw [dif_pos hlt]
      simp only [run_loop, if_neg hip, hget]
      cases hex : exec (prog.get ⟨rt.ip, hlt⟩) prog rt with
      | error e => simp
      | ok rt' =>
        simp only
        have hipeq : rt'.ip = rt.ip := exec_ip _ prog rt rt' hex
        rw [hipeq]
        exact ih { rt' with ip := rt.ip + 1 } (by simpa using hlt)
          (by simp; omega)

/-- C5: `vm::run(entry)` sets the instruction pointer to `entry` and
then, while it is below the program size, executes the instruction at
the pointer and increments it, returning once the pointer is no longer
below the program size.  (The source loop tests `ip != size`; for any
entry point within bounds this is the same loop, and beyond bounds the
C++ dereferences `prog[ip]` out of range.) -/
theorem claim_C5 [Add V] [Sub V] [Mul V] (prog : List (instruction V))
    (rt : rte V) (entry : Nat) (h : entry ≤ prog.length) :
    vm_run prog rt entry = spec_run prog { rt with ip := entry } := by
  unfold vm_run
  exact run_loop_eq_spec prog (prog.length + 1) { rt with ip := entry }
    (by simpa using h) (by simp; omega)

/-- C5 witness: a one-instruction program entered at 0. -/
theorem claim_C5_witness :
    (0 ≤ [instruction.load_val (1 : Int)].length) ∧
      vm_run [instruction.load_val (1 : Int)] ⟨[], [], [], [], [], 0⟩ 0 =
        spec_run [instruction.load_val (1 : Int)]
          { (⟨[], [], [], [], [], 0⟩ : rte Int) with ip := 0 } :=
  ⟨by simp, claim_C5 [instruction.load_val (1 : Int)]
    ⟨[], [], [], [], [], 0⟩ 0 (by simp)⟩

/-- C1: for a variable cell present in the RTE and any value `v`,
running the program compiled from `x = v` with swapped operands
(`LoadVal v; LoadVar x; CallFun =`) stores `v` in the cell and leaves
`v` on top of the value stack. -/
theorem claim_C1 [Add V] [Sub V] [Mul V] (rt : rte V) (ix : Nat) (v : V)
    (h : ix < rt.var_tab.length) :
    ∃ rt', vm_run [.load_val v, .load_var ix, .call_fun .scalar_assign] rt 0 =
        .ok rt' ∧
      (rt'.var_tab[ix]?).map value.val = some v ∧
      rt'.stack.head? = some v := by
  refine ⟨{ rt with ip := 3, stack := v :: rt.stack, var_tab := set_val rt.var_tab ix v }, ?_, ?_, ?_⟩
  · have hget : rt.var_tab[ix]? = some (rt.var_tab.get ⟨ix, h⟩) := by
      simp [List.getElem?_eq_getElem h]
    simp [vm_run, run_loop, exec, applyFun, hget]
  · exact set_val_get?_val rt.var_tab ix v h
  · rfl

/-- C1 witness: assigning 42 to the variable `x` of a one-variable
environment. -/
theorem claim_C1_witness :
    (0 < (rte.var_tab (V := Int) ⟨[], [⟨"x", 0⟩], [], [], [], 0⟩).length) ∧
    ∃ rt', vm_run [.load_val (42 : Int), .load_var 0,
          .call_fun .scalar_assign] ⟨[], [⟨"x", 0⟩], [], [], [], 0⟩ 0 =
        .ok rt' ∧
      (rt'.var_tab[0]?).map value.val = some 42 ∧
      rt'.stack.head? = some 42 :=
  ⟨by simp, claim_C1 ⟨[], [⟨"x", 0⟩], [], [], [], 0⟩ 0 42 (by simp)⟩

/-- When the read/assign loop of `vector_assign` reaches offset
`i + d` whose instruction is not a `load_var`, having seen only
`load_var`s before it and with enough stack, it throws
`invalid_assign`. -/
theorem vec_assign_loop_invalid (prog : List (instruction V)) (N : Nat) :
    ∀ (d i : Nat) (rt : rte V) (ins : instruction V),
      i + d < N →
      d + 1 ≤ rt.stack.length →
      (∀ k, i ≤ k → k < i + d →
        ∃ ix, prog[rt.ip - (1 + k)]? = some (.load_var ix)) →
      1 + (i + d) ≤ rt.ip →
      prog[rt.ip - (1 + (i + d))]? = some ins →
      ins.is_load_var = false →
      ∃ rt', vec_assign_loop prog N i rt = .error (.invalid_assign, rt') := by
  intro d
  induction d with
  | zero =>
    intro i rt ins hiN hlen hpre hip hbad hnlv
    obtain ⟨v, s, hst⟩ : ∃ v s, rt.stack = v :: s := by
      cases h : rt.stack with
      | nil => rw [h] at hlen; simp at hlen
      | cons a b => exact ⟨a, b, rfl⟩
    rw [vec_assign_loop]
    rw [dif_neg (show ¬ N ≤ i by omega)]
    simp only [hst]
    rw [if_neg (show ¬ rt.ip < 1 + i by omega)]
    have hbad' : prog[rt.ip - (1 + i)]? = some ins := by
      have he : rt.ip - (1 + i) = rt.ip - (1 + (i + 0)) := by omega
      rw [he]
      exact hbad
    simp only [hbad']
    cases ins with
    | load_var ix => simp [instruction.is_load_var] at hnlv
    | load_val v2 => exact ⟨rt, rfl⟩
    | call_fun f => exact ⟨rt, rfl⟩
  | succ d ih =>
    intro i rt ins hiN hlen hpre hip hbad hnlv
    obtain ⟨v, s, hst⟩ : ∃ v s, rt.stack = v :: s := by
      cases h : rt.stack with
      | nil => rw [h] at hlen; simp at hlen
      | cons a b => exact ⟨a, b, rfl⟩
    rw [vec_assign_loop]
    rw [dif_neg (show ¬ N ≤ i by omega)]
    simp only [hst]
    rw [if_neg (show ¬ rt.ip < 1 + i by omega)]
    obtain ⟨ix, hk⟩ := hpre i (le_refl i) (by omega)
    simp only [hk]
    have hlen' : rt.stack.length = s.length + 1 := by rw [hst]; simp
    obtain ⟨rt', hrt'⟩ :=
      ih (i + 1) { rt with stack := s, var_tab := set_val rt.var_tab ix v }
        ins (by omega) (by simp; omega)
        (fun k hk1 hk2 => hpre k (by omega) (by omega))
        (by simp; omega)
        (by
          simp only
          have he : rt.ip - (1 + (i + 1 + d)) = rt.ip - (1 + (i + (d + 1))) := by
            omega
          rw [he]
          exact hbad)
        hnlv
    simp only [hrt']
    exact ⟨rt', rfl⟩

/-- C3: when the assignment function `=` is invoked and the
instruction at the expected offset before the current instruction
pointer (`ip - 1` for the scalar form; `ip - 1 - i`, `i < N`, for the
vector form of arity `N`) is not a `LoadVar`, execution fails with
`InvalidAssign`.  The hypotheses restrict to executions on which the
C++ is defined: the value stack holds the function's inputs and the
inspected offsets are in range (for the vector form the `i`-th slot is
only inspected after `i` `load_var` slots have been consumed). -/
theorem claim_C3 [Add V] [Sub V] [Mul V] :
    (∀ (prog : List (instruction V)) (rt : rte V) (ins : instruction V),
      rt.stack ≠ [] → rt.ip ≠ 0 → prog[rt.ip - 1]? = some ins →
      ins.is_load_var = false →
      ∃ rt', applyFun .scalar_assign prog rt =
        .error (.invalid_assign, rt')) ∧
    (∀ (prog : List (instruction V)) (rt : rte V) (N j : Nat)
      (ins : instruction V),
      j < N → 2 * N ≤ rt.stack.length →
      (∀ k, k < j → ∃ ix, prog[rt.ip - (1 + k)]? = some (.load_var ix)) →
      1 + j ≤ rt.ip → prog[rt.ip - (1 + j)]? = some ins →
      ins.is_load_var = false →
      ∃ rt', applyFun (.vector_assign N) prog rt =
        .error (.invalid_assign, rt')) := by
  constructor
  · intro prog rt ins hne hip hins hnlv
    cases hst : rt.stack with
    | nil => exact absurd hst hne
    | cons x s =>
      simp only [applyFun, hst, if_neg hip, hins]
      cases ins with
      | load_var ix => simp [instruction.is_load_var] at hnlv
      | load_val v => exact ⟨{ rt with stack := s }, rfl⟩
      | call_fun f => exact ⟨{ rt with stack := s }, rfl⟩
  · intro prog rt N j ins hjN hlen hpre hip hins hnlv
    have hdrop : ({ rt with stack := rt.stack.drop N } : rte V).stack.length =
        rt.stack.length - N := by simp
    obtain ⟨rt', hrt'⟩ :=
      vec_assign_loop_invalid prog N j 0
        { rt with stack := rt.stack.drop N } ins
        (by omega) (by simp; omega)
        (fun k hk1 hk2 => hpre k (by omega))
        (by simp; omega) (by simp only [Nat.zero_add]; exact hins) hnlv
    simp only [applyFun, hrt']
    exact ⟨rt', rfl⟩

/-- C3 witness: `2 3 =` (scalar) and `1 2 3 4 =[vector 2]` with
`load_val` instructions at the inspected offsets both throw
`invalid_assign`. -/
theorem claim_C3_witness :
    (∃ rt', applyFun (V := Int) .scalar_assign
        [.load_val 2, .load_val 3, .call_fun .scalar_assign]
        ⟨[], [], [], [3, 2], [], 2⟩ = .error (.invalid_assign, rt')) ∧
    (∃ rt', applyFun (V := Int) (.vector_assign 2)
        [.load_val 1, .load_val 2, .load_val 3, .load_val 4,
         .call_fun (.vector_assign 2)]
        ⟨[], [], [], [4, 3, 2, 1], [], 4⟩ = .error (.invalid_assign, rt')) :=
  ⟨claim_C3.1 [.load_val 2, .load_val 3, .call_fun .scalar_assign]
      ⟨[], [], [], [3, 2], [], 2⟩ (.load_val 3) (by decide) (by decide) rfl rfl,
   claim_C3.2 [.load_val 1, .load_val 2, .load_val 3, .load_val 4,
        .call_fun (.vector_assign 2)]
      ⟨[], [], [], [4, 3, 2, 1], [], 4⟩ 2 0 (.load_val 4) (by decide)
      (by decide) (fun k hk => absurd hk (by omega)) (by decide) rfl rfl⟩

/-- C10: `scalar_assign` pops one value before checking that the
preceding instruction is a `LoadVar`, so when it fails with
`InvalidAssign` the value stack at the throw point has one element
fewer than before the call. -/
theorem claim_C10 [Add V] [Sub V] [Mul V] (prog : List (instruction V))
    (rt : rte V) (x : V) (s : List V) (ins : instruction V)
    (hst : rt.stack = x :: s) (hip : rt.ip ≠ 0)
    (hins : prog[rt.ip - 1]? = some ins) (hnlv : ins.is_load_var = false) :
    applyFun .scalar_assign prog rt =
      .error (.invalid_assign, { rt with stack := s }) ∧
    ({ rt with stack := s } : rte V).stack.length + 1 = rt.stack.length := by
  constructor
  · simp only [applyFun, hst, if_neg hip, hins]
    cases ins with
    | load_var ix => simp [instruction.is_load_var] at hnlv
    | load_val v => rfl
    | call_fun f => rfl
  · rw [hst]
    simp

/-- C10 witness: invoking `scalar_assign` after `load_val 2; load_val 3`
on the stack `[3, 2]` throws with the popped stack `[2]`. -/
theorem claim_C10_witness :
    applyFun (V := Int) .scalar_assign
        [.load_val 2, .load_val 3, .call_fun .scalar_assign]
        ⟨[], [], [], [3, 2], [], 2⟩ =
      .error (.invalid_assign, ⟨[], [], [], [2], [], 2⟩) ∧
    ((⟨[], [], [], [2], [], 2⟩ : rte Int).stack.length + 1 =
      (⟨[], [], [], [3, 2], [], 2⟩ : rte Int).stack.length) :=
  claim_C10 [.load_val 2, .load_val 3, .call_fun .scalar_assign]
    ⟨[], [], [], [3, 2], [], 2⟩ 3 [2] (.load_val 3) rfl (by decide) rfl rfl

/-- C2 counterexample: running the program compiled from
`(1,2,3) + (4,5,6)` does NOT leave the value stack reading `5, 7, 9`
from top to bottom (the claim's order). -/
theorem claim_C2_counterexample :
    (vm_run prog_c2 rte_c2 0).toOption.map (fun rt => rt.stack) ≠
      some [5, 7, 9] := by
  decide

/-- C2 amended: running the compiled program for `(1,2,3) + (4,5,6)`
leaves the value stack holding, from top to bottom, the values
`9, 7, 5` (equivalently `5, 7, 9` from bottom to top): the elementwise
sums are pushed back so that the last component ends up on top, mirror
image of the order in which the operand components were loaded. -/
theorem claim_C2_amended :
    (vm_run prog_c2 rte_c2 0).toOption.map (fun rt => rt.stack) =
      some [9, 7, 5] := by
  decide

/-- C4 counterexample: with `count_args` on, the word `f[]`, whose
annotation holds zero integers, produces NO token at all — in
particular no Unknown token — because `create_token` returns the null
pointer and `create_tokens` skips it. -/
theorem claim_C4_counterexample :
    create_tokens [] true (fun _ => false) (fun _ => false)
        [['f', '[', ']']] = [] ∧
    (create_tokens [] true (fun _ => false) (fun _ => false)
        [['f', '[', ']']]).any Token.is_unknown = false := by
  constructor <;> decide

/-- C4 amended: during tokenisation with `count_args` on, an assembled
word whose complete `[`..`]` annotation contains a number of integers
other than 1, 2 or 3 yields no token in the parse result:
`create_token` returns the null pointer and `create_tokens` drops the
word.  (The two match predicates stand for the `search_number` /
`search_name` matchers of the missing text_utility.h; the annotated
branch never consults them.) -/
theorem claim_C4_amended (ops : List operator_type)
    (mnum mname : List Char → Bool) (w : List Char) (i c : Nat)
    (hi : find_from '[' 0 w = some i) (hc : find_from ']' i w = some c)
    (h1 : (read_ints ((w.drop (i + 1)).take (c - (i + 1)))).length ≠ 1)
    (h2 : (read_ints ((w.drop (i + 1)).take (c - (i + 1)))).length ≠ 2)
    (h3 : (read_ints ((w.drop (i + 1)).take (c - (i + 1)))).length ≠ 3) :
    create_token ops true mnum mname w = none := by
  simp only [create_token, hi, hc, if_true]
  cases hr : read_ints ((w.drop (i + 1)).take (c - (i + 1))) with
  | nil => simp [hr]
  | cons a t =>
    cases t with
    | nil => rw [hr] at h1; simp at h1
    | cons b t2 =>
      cases t2 with
      | nil => rw [hr] at h2; simp at h2
      | cons c2 t3 =>
        cases t3 with
        | nil => rw [hr] at h3; simp at h3
        | cons d t4 => simp [hr]

/-- C4 witness: the assembled word `f[1 2 3 4]` carries four integers
in its annotation and yields no token. -/
theorem claim_C4_witness :
    (find_from '[' 0 ['f', '[', '1', ' ', '2', ' ', '3', ' ', '4', ']'] =
      some 1) ∧
    (find_from ']' 1 ['f', '[', '1', ' ', '2', ' ', '3', ' ', '4', ']'] =
      some 9) ∧
    create_token [] true (fun _ => false) (fun _ => false)
      ['f', '[', '1', ' ', '2', ' ', '3', ' ', '4', ']'] = none :=
  ⟨by decide, by decide,
   claim_C4_amended [] (fun _ => false) (fun _ => false)
     ['f', '[', '1', ' ', '2', ' ', '3', ' ', '4', ']'] 1 9
     (by decide) (by decide) (by decide) (by decide) (by decide)⟩
